import Mathlib

/-
Verification of the hail batch graph compiler and storage facade.

Shallow embedding of:
  src/hail/python/hailtop/batch/batch.py  (Batch.run linearization,
    Batch.write_output, Batch._unique_job_token, Batch.new_bash_job,
    Batch.new_python_job, Batch._new_resource_group)
  src/hail/python/hail/fs/router_fs.py    (RouterFS.stat)
  src/hail/python/hail/fs/local_fs.py     (LocalFS.open)

Jobs are identified by natural numbers (Python job objects compared by
identity); resources, strings and file-system outcomes are modelled by
explicit data types.  All definitions are structurally recursive so that
concrete instances evaluate inside the kernel.
-/

namespace HailBatch

/-! Linearization, batch.py lines 680 to 705.

A batch, for the purposes of `Batch.run`, is its insertion-ordered job
list together with each job's dependency set (`j._dependencies`,
iterated in some order, modelled as a list).  `deps` is consulted only
for jobs of the batch: dependencies of foreign job objects are not
modelled (they never matter for the claims, whose batches keep all
dependencies inside the batch). -/
structure LinBatch where
  jobs : List Nat
  deps : Nat → List Nat

/-- Dependency lookup used by the traversal: `j._dependencies` for a job
of the batch, nothing for an id outside the batch. -/
def depsOf (b : LinBatch) (j : Nat) : List Nat :=
  if j ∈ b.jobs then b.deps j else []

/-- Errors `Batch.run` can surface before delegating to the backend:
`BatchException` (with its message) and a failed `assert`.  `outOfFuel`
is an artifact of the fuel-indexed recursion; `scheduleAll_isSome`
proves it unreachable. -/
inductive BatchError where
  | batchException (msg : String)
  | assertionError
  | outOfFuel
  deriving DecidableEq

/-- The inner `for p in j._dependencies: schedule_job(p)` loop, with the
per-dependency scheduler passed in as `f`. -/
def runDeps (f : Nat → List Nat → List Nat → Option (List Nat × List Nat)) :
    List Nat → List Nat → List Nat → Option (List Nat × List Nat)
  | [], seen, ordered => some (seen, ordered)
  | p :: ps, seen, ordered =>
    match f p seen ordered with
    | none => none
    | some (seen1, ordered1) => runDeps f ps seen1 ordered1

/-- `schedule_job` from `Batch.run`: return if already seen, otherwise
mark seen before descending into the dependencies, and append the job to
the output order after all dependencies were visited.  `fuel` bounds the
recursion depth; `fuelBound` below always suffices. -/
def scheduleJob (b : LinBatch) : Nat → Nat → List Nat → List Nat →
    Option (List Nat × List Nat)
  | 0, _, _, _ => none
  | fuel + 1, j, seen, ordered =>
    if j ∈ seen then some (seen, ordered)
    else
      match runDeps (fun p s o => scheduleJob b fuel p s o) (depsOf b j)
          (seen ++ [j]) ordered with
      | none => none
      | some (seen2, ordered2) => some (seen2, ordered2 ++ [j])

/-- Every id the traversal can ever reach: the batch's jobs and all of
their declared dependencies. -/
def univList (b : LinBatch) : List Nat :=
  b.jobs ++ b.jobs.flatMap b.deps

/-- A recursion-depth bound: one more than the number of distinct
reachable ids. -/
def fuelBound (b : LinBatch) : Nat :=
  (univList b).toFinset.card + 1

/-- The `for j in self._jobs: schedule_job(j)` loop of `Batch.run`. -/
def scheduleAll (b : LinBatch) : Option (List Nat × List Nat) :=
  runDeps (fun p s o => scheduleJob b (fuelBound b) p s o) b.jobs [] []

/-- Zero-based index of the first occurrence of `x` in `o` (length of
`o` when absent). -/
def posIn : List Nat → Nat → Nat
  | [], _ => 0
  | y :: ys, x => if y = x then 0 else posIn ys x + 1

/-- The 1-based position `job_index[j]` assigned to `j._job_id` by
`Batch.run` (`enumerate(ordered_jobs, start=1)`). -/
def posOf (o : List Nat) (x : Nat) : Nat :=
  posIn o x + 1

/-- `Batch.run` up to the point where the ordered plan is handed to the
backend (batch.py lines 680 to 705): depth-first traversal over the jobs
in insertion order, the `assert len(seen) == len(self._jobs)` count
check, then the per-edge position check that raises
`BatchException("cycle detected in dependency graph")`.  An `ok` result
is exactly the state in which `self._jobs` has been replaced by the
ordered list and `self._backend._run` is invoked. -/
def linearize (b : LinBatch) : Except BatchError (List Nat) :=
  match scheduleAll b with
  | none => .error .outOfFuel
  | some (seen, ordered) =>
    if seen.length = b.jobs.length then
      if ordered.all (fun j => (depsOf b j).all
          (fun d => decide (posOf ordered d < posOf ordered j))) then
        .ok ordered
      else .error (.batchException "cycle detected in dependency graph")
    else .error .assertionError

/-- One dependency edge: `y` is among the dependencies of batch job `x`. -/
def Step (b : LinBatch) (x y : Nat) : Prop :=
  y ∈ depsOf b x

/-- The dependency relation has no directed cycle. -/
def Acyclic (b : LinBatch) : Prop :=
  ∀ x, ¬ Relation.TransGen (Step b) x x

/-- Every dependency of a batch job is itself a batch job. -/
def Closed (b : LinBatch) : Prop :=
  ∀ j ∈ b.jobs, ∀ d ∈ b.deps j, d ∈ b.jobs

/-- Some job lies on a directed dependency cycle. -/
def HasCycle (b : LinBatch) : Prop :=
  ∃ x, Relation.TransGen (Step b) x x

/-- Every finished job's dependencies are finished earlier in `o`. -/
def TopoSorted (b : LinBatch) (o : List Nat) : Prop :=
  ∀ x ∈ o, ∀ p ∈ depsOf b x, p ∈ o ∧ posIn o p < posIn o x

/-- How many reachable ids are not yet marked seen. -/
def measureLeft (b : LinBatch) (s : List Nat) : Nat :=
  ((univList b).toFinset \ s.toFinset).card

/-- A two-job acyclic batch: job 1 depends on job 0. -/
def bW : LinBatch :=
  ⟨[0, 1], fun j => if j = 1 then [0] else []⟩

/-- A two-job batch forming a direct 2-cycle: 0 and 1 depend on each
other. -/
def bCyc : LinBatch :=
  ⟨[0, 1], fun j => if j = 0 then [1] else if j = 1 then [0] else []⟩

/-- A batch with a 2-cycle between its jobs 0 and 1 in which job 0 also
depends on id 2, which is not a job of the batch. -/
def bCex : LinBatch :=
  ⟨[0, 1], fun j => if j = 0 then [1, 2] else if j = 1 then [0] else []⟩

/-! Batch.write_output, batch.py lines 599 to 621, together with the
resource shapes it inspects.  A resource carries what the guards read:
which job class produced it (`isinstance(resource._source, ...)`),
whether it sits in its producing job's `_mentioned` set, the symbolic
name `resource._source._resources_inverse[resource]`, and its recorded
output paths. -/

/-- The concrete job class of a resource's `_source`. -/
inductive JobKind where
  | bashJob
  | pythonJob
  deriving DecidableEq

inductive Resource where
  | inputResourceFile (outputPaths : List String)
  | jobResourceFile (source : JobKind) (mentioned : Bool) (name : String)
      (outputPaths : List String)
  | pythonResult (source : JobKind) (mentioned : Bool) (name : String)
      (outputPaths : List String)
  | resourceGroup (source : Option JobKind) (mentioned : Bool)
      (outputPaths : List String)
  deriving DecidableEq

/-- The argument passed to `write_output`: a `Resource`, or any other
Python value (carrying the display of its type). -/
inductive WOArg where
  | res (r : Resource)
  | notAResource (typeName : String)
  deriving DecidableEq

inductive Backend where
  | localBackend
  | serviceBackend
  deriving DecidableEq

/-- Ambient collaborators of `write_output`: the active backend,
`hailtop.utils.url_scheme`, and
`os.path.abspath(os.path.expanduser(.))` as pure functions of the
destination string. -/
structure WriteCtx where
  backend : Backend
  urlScheme : String → String
  abspath : String → String

/-- Modelled from the spec: `Resource._add_output_path` (resource.py,
not under src/) "Records the destination on the resource for the
backend to fulfill" — the destination is appended to the resource's
recorded output destinations. -/
def Resource.addOutputPath : Resource → String → Resource
  | .inputResourceFile ps, d => .inputResourceFile (ps ++ [d])
  | .jobResourceFile src m n ps, d => .jobResourceFile src m n (ps ++ [d])
  | .pythonResult src m n ps, d => .pythonResult src m n (ps ++ [d])
  | .resourceGroup src m ps, d => .resourceGroup src m (ps ++ [d])

def writeOutputTypeMsg (ty : String) : String :=
  "\x27write_output\x27 only accepts Resource inputs. Found \x27" ++ ty ++ "\x27."

def undefinedBashResourceMsg (name : String) : String :=
  "undefined resource \x27" ++ name ++
    "\x27\nHint: resources must be defined within the job methods \x27command\x27 or \x27declare_resource_group\x27"

def undefinedPythonResourceMsg (name : String) : String :=
  "undefined resource \x27" ++ name ++
    "\x27\nHint: resources must be bound as a result using the PythonJob \x27call\x27 method"

/-- `Batch.write_output(resource, dest)`: reject non-Resource arguments;
reject a `JobResourceFile` whose source is a `BashJob` that never
mentioned it, and a `PythonResult` whose source is a `PythonJob` that
never mentioned it; otherwise, under a local backend and a scheme-less
destination, resolve the destination to an absolute path, and record it
on the resource.  The second component is the argument as it stands
after the call. -/
def write_output (ctx : WriteCtx) (arg : WOArg) (dest : String) :
    Except BatchError Unit × WOArg :=
  match arg with
  | .notAResource ty => (.error (.batchException (writeOutputTypeMsg ty)), arg)
  | .res r =>
    match r with
    | .jobResourceFile .bashJob false name _ =>
        (.error (.batchException (undefinedBashResourceMsg name)), arg)
    | .pythonResult .pythonJob false name _ =>
        (.error (.batchException (undefinedPythonResourceMsg name)), arg)
    | _ =>
      let d := if ctx.backend = .localBackend ∧ ctx.urlScheme dest = ""
        then ctx.abspath dest else dest
      (.ok (), .res (r.addOutputPath d))

/-- A concrete local-backend context used by witnesses. -/
def wCtxLocal : WriteCtx :=
  ⟨.localBackend, fun _ => "", fun s => "/abs/" ++ s⟩

/-! Batch._unique_job_token (batch.py lines 248 to 252) and job
creation.  `secret_alnum_string` is modelled as a stream `rng` of draws
indexed by a counter; `fuel` bounds the retry loop, which Python leaves
unbounded. -/

/-- `Batch._unique_job_token`: draw a token; while it is already in
`self._job_tokens`, draw again; return the first free draw (and the
next stream position). -/
def uniqueJobToken (rng : Nat → String) : Nat → Nat → List String →
    Option (String × Nat)
  | 0, _, _ => none
  | fuel + 1, ctr, used =>
    let t := rng ctr
    if t ∈ used then uniqueJobToken rng fuel (ctr + 1) used
    else some (t, ctr + 1)

/-- Modelled from the spec: `Job.__init__` (job.py, not under src/)
records the minted token in the Batch's used-token set ("a set of
already-used job tokens (to guarantee token uniqueness within one
graph)"; minting "retr[ies] random generation until it is absent from
the Batch's used-token set").  Minting followed by recording. -/
def mintAndRecordToken (rng : Nat → String) (fuel ctr : Nat)
    (used : List String) : Option (String × Nat × List String) :=
  match uniqueJobToken rng fuel ctr used with
  | none => none
  | some (t, ctr') => some (t, ctr', used ++ [t])

/-- What `new_bash_job` / `new_python_job` append to `self._jobs`. -/
structure JobDesc where
  token : String
  name : Option String
  attributes : List (String × String)
  deriving DecidableEq

/-- The batch state these calls touch: the job list, the used-token
set, and the position in the random stream. -/
structure BatchSt where
  jobs : List JobDesc
  jobTokens : List String
  rngCtr : Nat
  deriving DecidableEq

def jobCtorNameMsg : String :=
  "\x27name\x27 is not a valid attribute. Use the name argument instead."

/-- Modelled from the spec: the Job constructor (job.py, not under
src/) rejects an attributes mapping containing the reserved key "name"
("Attribute map must not contain a reserved name key; violating this
fails with a configuration error").  The message mirrors the identical
check `Batch.__init__` performs on batch attributes (batch.py line
180); the check is modelled as preceding any mutation of the batch. -/
def jobCtorCheck (attributes : List (String × String)) :
    Except BatchError Unit :=
  if attributes.any (fun kv => kv.fst = "name") then
    .error (.batchException jobCtorNameMsg)
  else .ok ()

/-- `Batch.new_bash_job`: mint a unique token, construct the job (whose
constructor enforces the reserved-attribute rule), then append it to
`self._jobs`.  On a constructor error nothing is appended or
recorded. -/
def new_bash_job (rng : Nat → String) (fuel : Nat) (st : BatchSt)
    (name : Option String) (attributes : List (String × String)) :
    Option (Except BatchError Unit × BatchSt) :=
  match mintAndRecordToken rng fuel st.rngCtr st.jobTokens with
  | none => none
  | some (tok, ctr', used') =>
    match jobCtorCheck attributes with
    | .error e => some (.error e, { st with rngCtr := ctr' })
    | .ok _ => some (.ok (), ⟨st.jobs ++ [⟨tok, name, attributes⟩], used', ctr'⟩)

/-- `Batch.new_python_job`: identical job-creation skeleton (the two
methods differ only in which Batch-level defaults they copy onto the
job, which no claim concerns). -/
def new_python_job (rng : Nat → String) (fuel : Nat) (st : BatchSt)
    (name : Option String) (attributes : List (String × String)) :
    Option (Except BatchError Unit × BatchSt) :=
  match mintAndRecordToken rng fuel st.rngCtr st.jobTokens with
  | none => none
  | some (tok, ctr', used') =>
    match jobCtorCheck attributes with
    | .error e => some (.error e, { st with rngCtr := ctr' })
    | .ok _ => some (.ok (), ⟨st.jobs ++ [⟨tok, name, attributes⟩], used', ctr'⟩)

/-- A concrete random stream whose first two draws collide. -/
def rngW : Nat → String :=
  fun i => if i = 0 then "A" else if i = 1 then "A" else "B"

/-- A fresh batch state. -/
def stW : BatchSt := ⟨[], [], 0⟩

/-! Batch._new_resource_group, batch.py lines 424 to 440.  A mapping
value is either a template string or some other Python value (carrying
the display of its type); `expand` models the eager f-string expansion
`eval(f-triple-quote code)` of a template against the current root and
scratch-path conventions.  The registry (`self._resource_map`) is
modelled by the list of entries this call adds to it: one per minted
member, in creation order, plus one for the group itself. -/

inductive RGValue where
  | strVal (s : String)
  | nonStrVal (typeName : String)
  deriving DecidableEq

inductive RegEntry where
  | member (value : String)
  | group (root : String)
  deriving DecidableEq

def rgValueMsg (name typeName : String) : String :=
  "value for name \x27" ++ name ++ "\x27 is not a string. Found \x27" ++
    typeName ++ "\x27 instead."

/-- The member loop of `_new_resource_group`: each member is checked to
be a string and, if so, its template is expanded and the minted member
resource is registered immediately (`_new_job_resource_file` writes to
`self._resource_map` inside the loop); a non-string value raises at
once, leaving the members already minted in the registry. -/
def newResourceGroupLoop (expand : String → String) :
    List (String × RGValue) → List RegEntry →
    Except BatchError Unit × List RegEntry
  | [], reg => (.ok (), reg)
  | (name, v) :: rest, reg =>
    match v with
    | .nonStrVal ty => (.error (.batchException (rgValueMsg name ty)), reg)
    | .strVal code =>
        newResourceGroupLoop expand rest (reg ++ [.member (expand code)])

/-- `Batch._new_resource_group`: run the member loop, then register the
group itself. -/
def new_resource_group (expand : String → String) (root : String)
    (mappings : List (String × RGValue)) (reg : List RegEntry) :
    Except BatchError Unit × List RegEntry :=
  match newResourceGroupLoop expand mappings reg with
  | (.ok _, reg1) => (.ok (), reg1 ++ [.group root])
  | (.error e, reg1) => (.error e, reg1)

end HailBatch

namespace HailFS

/-! RouterFS.stat, router_fs.py lines 211 to 223, and LocalFS.open,
local_fs.py lines 13 to 20. -/

inductive FileType where
  | file
  | directory
  deriving DecidableEq

structure StatResult where
  path : String
  size : Nat
  typ : FileType
  deriving DecidableEq

/-- `_stat_result(is_dir, size_bytes, path)` from router_fs.py. -/
def statResultOf (is_dir : Bool) (size_bytes : Nat) (path : String) :
    StatResult :=
  ⟨path, size_bytes, if is_dir then .directory else .file⟩

inductive FSError where
  | fileNotFound (path : String)
  deriving DecidableEq

/-- `RouterFS.stat`: `sizeBytes` is the outcome of the file-size lookup
(`(await self.afs.statfile(path)).size()`, `none` when it raised
`FileNotFoundError`), `isDir` the outcome of the directory probe run
alongside it. -/
def RouterFS_stat (path : String) (sizeBytes : Option Nat) (isDir : Bool) :
    Except FSError StatResult :=
  match sizeBytes with
  | none =>
    if !isDir then .error (.fileNotFound path)
    else .ok (statResultOf true 0 path)
  | some n => .ok (statResultOf isDir n path)

inductive OSErr where
  | fileNotFound
  | permissionDenied
  | otherErr (s : String)
  deriving DecidableEq

/-- The outcomes the operating system would give `LocalFS.open`:
`firstOpen` is the result of the builtin `open(path, mode)` as the
world stands, `retryOpen` its result after
`os.makedirs(os.path.dirname(path))` created the missing parents.  A
returned file handle is a number. -/
structure LocalOpenWorld where
  firstOpen : Except OSErr Nat
  retryOpen : Except OSErr Nat

/-- `LocalFS.open`: in a write mode, one `FileNotFoundError` from the
initial open is caught, the parent directories are created, and the
open is retried exactly once, whatever the retry yields being the
result; every other first outcome, and any read-mode outcome, is
returned unchanged. -/
def LocalFS_open (w : LocalOpenWorld) (mode : String) : Except OSErr Nat :=
  if 'w' ∈ mode.data then
    match w.firstOpen with
    | .error .fileNotFound => w.retryOpen
    | r => r
  else w.firstOpen

/-- A world in which the parent directory is missing: the first open
fails with `FileNotFoundError`, the open after `makedirs` succeeds. -/
def wWorldMissingParent : LocalOpenWorld :=
  ⟨.error .fileNotFound, .ok 7⟩

/-- A world in which the first open fails with a permission error. -/
def wWorldNoPerm : LocalOpenWorld :=
  ⟨.error .permissionDenied, .ok 7⟩

end HailFS

namespace HailBatch

/-! Positions in the ordered list. -/

theorem posIn_append_left {l : List Nat} (r : List Nat) {x : Nat}
    (h : x ∈ l) : posIn (l ++ r) x = posIn l x := by
  induction l with
  | nil => cases h
  | cons y ys ih =>
    by_cases hyx : y = x
    · simp [posIn, hyx]
    · have hx : x ∈ ys := by
        cases h with
        | head => exact absurd rfl hyx
        | tail _ h => exact h
      simp [posIn, hyx, ih hx]

theorem posIn_lt_length {l : List Nat} {x : Nat} (h : x ∈ l) :
    posIn l x < l.length := by
  induction l with
  | nil => cases h
  | cons y ys ih =>
    by_cases hyx : y = x
    · simp [posIn, hyx]
    · have hx : x ∈ ys := by
        cases h with
        | head => exact absurd rfl hyx
        | tail _ h => exact h
      simpa [posIn, hyx, Nat.succ_lt_succ_iff] using ih hx

theorem posIn_append_self {l : List Nat} (r : List Nat) {x : Nat}
    (h : x ∉ l) : posIn (l ++ x :: r) x = l.length := by
  induction l with
  | nil => simp [posIn]
  | cons y ys ih =>
    have hyx : y ≠ x := fun e => h (e ▸ List.mem_cons_self y ys)
    have hx : x ∉ ys := fun hx => h (List.mem_cons_of_mem _ hx)
    simp [posIn, hyx, ih hx]

theorem posIn_get {o : List Nat} (hnd : o.Nodup) :
    ∀ (i : Nat) (h : i < o.length), posIn o (o.get ⟨i, h⟩) = i := by
  induction o with
  | nil => intro i h; cases h
  | cons y ys ih =>
    intro i h
    cases i with
    | zero => simp [posIn]
    | succ i =>
      have h' : i < ys.length := Nat.lt_of_succ_lt_succ h
      have hy : y ∉ ys := (List.nodup_cons.mp hnd).1
      have hmem : ys.get ⟨i, h'⟩ ∈ ys := List.get_mem ys i h'
      have hne : y ≠ ys.get ⟨i, h'⟩ := fun e => hy (e ▸ hmem)
      have hget : (y :: ys).get ⟨i + 1, h⟩ = ys.get ⟨i, h'⟩ := rfl
      rw [hget]
      simp only [posIn, if_neg hne]
      rw [ih (List.nodup_cons.mp hnd).2 i h']

/-! Growth of the traversal state: seen only extends, and the new seen
ids are exactly the new ordered ids. -/

theorem nodup_append_singleton {s : List Nat} {j : Nat} (hs : s.Nodup)
    (hj : j ∉ s) : (s ++ [j]).Nodup := by
  refine List.nodup_append.mpr ⟨hs, List.nodup_singleton j, ?_⟩
  intro a ha hb
  rw [List.mem_singleton] at hb
  exact hj (hb ▸ ha)

theorem runDeps_growth
    (f : Nat → List Nat → List Nat → Option (List Nat × List Nat))
    (hf : ∀ j s o s' o', f j s o = some (s', o') →
      ∃ t u, s' = s ++ t ∧ o' = o ++ u ∧ List.Perm t u ∧ j ∈ s' ∧
        (s.Nodup → s'.Nodup)) :
    ∀ ps s o s' o', runDeps f ps s o = some (s', o') →
      ∃ t u, s' = s ++ t ∧ o' = o ++ u ∧ List.Perm t u ∧
        (∀ p ∈ ps, p ∈ s') ∧ (s.Nodup → s'.Nodup) := by
  intro ps
  induction ps with
  | nil =>
    intro s o s' o' h
    simp only [runDeps] at h
    obtain ⟨rfl, rfl⟩ := Prod.mk.injEq .. ▸ Option.some.inj h
    exact ⟨[], [], by simp, by simp, List.Perm.refl _, by simp, fun h => h⟩
  | cons p ps ih =>
    intro s o s' o' h
    simp only [runDeps] at h
    cases hstep : f p s o with
    | none => rw [hstep] at h; cases h
    | some so =>
      obtain ⟨s1, o1⟩ := so
      rw [hstep] at h
      obtain ⟨t1, u1, hs1, ho1, hp1, hmem1, hnd1⟩ := hf p s o s1 o1 hstep
      obtain ⟨t2, u2, hs2, ho2, hp2, hmem2, hnd2⟩ := ih s1 o1 s' o' h
      refine ⟨t1 ++ t2, u1 ++ u2, ?_, ?_, hp1.append hp2, ?_, fun hnd => hnd2 (hnd1 hnd)⟩
      · rw [hs2, hs1, List.append_assoc]
      · rw [ho2, ho1, List.append_assoc]
      · intro q hq
        cases hq with
        | head => rw [hs2]; exact List.mem_append_left _ hmem1
        | tail _ hq => exact hmem2 q hq

theorem scheduleJob_growth (b : LinBatch) :
    ∀ fuel j s o s' o', scheduleJob b fuel j s o = some (s', o') →
      ∃ t u, s' = s ++ t ∧ o' = o ++ u ∧ List.Perm t u ∧ j ∈ s' ∧
        (s.Nodup → s'.Nodup) := by
  intro fuel
  induction fuel with
  | zero => intro j s o s' o' h; simp [scheduleJob] at h
  | succ fuel ih =>
    intro j s o s' o' h
    simp only [scheduleJob] at h
    by_cases hj : j ∈ s
    · rw [if_pos hj] at h
      obtain ⟨rfl, rfl⟩ := Prod.mk.injEq .. ▸ Option.some.inj h
      exact ⟨[], [], by simp, by simp, List.Perm.refl _, hj, fun h => h⟩
    · rw [if_neg hj] at h
      cases hrd : runDeps (fun p s o => scheduleJob b fuel p s o)
          (depsOf b j) (s ++ [j]) o with
      | none => rw [hrd] at h; cases h
      | some so =>
        obtain ⟨s2, o2⟩ := so
        rw [hrd] at h
        obtain ⟨rfl, rfl⟩ := Prod.mk.injEq .. ▸ Option.some.inj h
        obtain ⟨t2, u2, hs2, ho2, hp2, _, hnd2⟩ :=
          runDeps_growth _ ih _ _ _ _ _ hrd
        refine ⟨j :: t2, u2 ++ [j], ?_, ?_, ?_, ?_, ?_⟩
        · rw [hs2, List.append_assoc]; rfl
        · rw [ho2, List.append_assoc]
        · exact (hp2.cons j).trans (List.perm_append_singleton j u2).symm
        · rw [hs2]
          exact List.mem_append_left _ (List.mem_append_right _ (List.mem_singleton_self j))
        · intro hnd
          exact hnd2 (nodup_append_singleton hnd hj)

/-! Under a closed dependency relation, the traversal never marks an id
outside the batch's job list. -/

theorem runDeps_mem (b : LinBatch)
    (f : Nat → List Nat → List Nat → Option (List Nat × List Nat))
    (hf : ∀ j s o s' o', j ∈ b.jobs → f j s o = some (s', o') →
      ∀ x ∈ s', x ∈ s ∨ x ∈ b.jobs) :
    ∀ ps s o s' o', (∀ p ∈ ps, p ∈ b.jobs) →
      runDeps f ps s o = some (s', o') → ∀ x ∈ s', x ∈ s ∨ x ∈ b.jobs := by
  intro ps
  induction ps with
  | nil =>
    intro s o s' o' _ h x hx
    simp only [runDeps] at h
    obtain ⟨rfl, _⟩ := Prod.mk.injEq .. ▸ Option.some.inj h
    exact Or.inl hx
  | cons p ps ih =>
    intro s o s' o' hps h x hx
    simp only [runDeps] at h
    cases hstep : f p s o with
    | none => rw [hstep] at h; cases h
    | some so =>
      obtain ⟨s1, o1⟩ := so
      rw [hstep] at h
      cases ih s1 o1 s' o' (fun q hq => hps q (List.mem_cons_of_mem _ hq)) h x hx with
      | inl hx1 =>
        exact hf p s o s1 o1 (hps p (List.mem_cons_self _ _)) hstep x hx1
      | inr hx1 => exact Or.inr hx1

theorem scheduleJob_mem (b : LinBatch) (hb : Closed b) :
    ∀ fuel j s o s' o', j ∈ b.jobs → scheduleJob b fuel j s o = some (s', o') →
      ∀ x ∈ s', x ∈ s ∨ x ∈ b.jobs := by
  intro fuel
  induction fuel with
  | zero => intro j s o s' o' _ h; simp [scheduleJob] at h
  | succ fuel ih =>
    intro j s o s' o' hjb h x hx
    simp only [scheduleJob] at h
    by_cases hj : j ∈ s
    · rw [if_pos hj] at h
      obtain ⟨rfl, _⟩ := Prod.mk.injEq .. ▸ Option.some.inj h
      exact Or.inl hx
    · rw [if_neg hj] at h
      cases hrd : runDeps (fun p s o => scheduleJob b fuel p s o)
          (depsOf b j) (s ++ [j]) o with
      | none => rw [hrd] at h; cases h
      | some so =>
        obtain ⟨s2, o2⟩ := so
        rw [hrd] at h
        obtain ⟨rfl, _⟩ := Prod.mk.injEq .. ▸ Option.some.inj h
        have hdeps : ∀ p ∈ depsOf b j, p ∈ b.jobs := by
          intro p hp
          rw [depsOf, if_pos hjb] at hp
          exact hb j hjb p hp
        cases runDeps_mem b _ ih _ _ _ _ _ hdeps hrd x hx with
        | inl hx1 =>
          cases List.mem_append.mp hx1 with
          | inl hxs => exact Or.inl hxs
          | inr hxj => exact Or.inr (List.mem_singleton.mp hxj ▸ hjb)
        | inr hx1 => exact Or.inr hx1

/-! The fuel bound always suffices: the depth measure strictly drops at
every fresh reachable id. -/

theorem measureLeft_mono (b : LinBatch) (s t : List Nat) :
    measureLeft b (s ++ t) ≤ measureLeft b s := by
  apply Finset.card_le_card
  apply Finset.sdiff_subset_sdiff (Finset.Subset.refl _)
  intro x hx
  rw [List.mem_toFinset] at hx
  rw [List.mem_toFinset]
  exact List.mem_append_left _ hx

theorem measureLeft_strict (b : LinBatch) {j : Nat} (s : List Nat)
    (hju : j ∈ univList b) (hjs : j ∉ s) :
    measureLeft b (s ++ [j]) < measureLeft b s := by
  apply Finset.card_lt_card
  rw [Finset.ssubset_iff_of_subset]
  · refine ⟨j, ?_, ?_⟩
    · rw [Finset.mem_sdiff, List.mem_toFinset, List.mem_toFinset]
      exact ⟨hju, hjs⟩
    · rw [Finset.mem_sdiff, List.mem_toFinset, List.mem_toFinset]
      intro ⟨_, hc⟩
      exact hc (List.mem_append_right _ (List.mem_singleton_self j))
  · apply Finset.sdiff_subset_sdiff (Finset.Subset.refl _)
    intro x hx
    rw [List.mem_toFinset] at hx
    rw [List.mem_toFinset]
    exact List.mem_append_left _ hx

theorem runDeps_progress (b : LinBatch) (fuel : Nat)
    (f : Nat → List Nat → List Nat → Option (List Nat × List Nat))
    (hf : ∀ j s o, measureLeft b s < fuel → ∃ r, f j s o = some r)
    (hg : ∀ j s o s' o', f j s o = some (s', o') → ∃ t, s' = s ++ t) :
    ∀ ps s o, measureLeft b s < fuel → ∃ r, runDeps f ps s o = some r := by
  intro ps
  induction ps with
  | nil => intro s o _; exact ⟨(s, o), rfl⟩
  | cons p ps ih =>
    intro s o hm
    obtain ⟨⟨s1, o1⟩, hstep⟩ := hf p s o hm
    obtain ⟨t, rfl⟩ := hg p s o s1 o1 hstep
    obtain ⟨r, hr⟩ := ih (s ++ t) o1
      (Nat.lt_of_le_of_lt (measureLeft_mono b s t) hm)
    refine ⟨r, ?_⟩
    simp only [runDeps, hstep, hr]

theorem scheduleJob_progress (b : LinBatch) :
    ∀ fuel j s o, measureLeft b s < fuel →
      ∃ r, scheduleJob b fuel j s o = some r := by
  intro fuel
  induction fuel with
  | zero => intro j s o h; cases h
  | succ fuel ih =>
    intro j s o hm
    by_cases hj : j ∈ s
    · exact ⟨(s, o), by simp [scheduleJob, hj]⟩
    · by_cases hju : j ∈ univList b
      · have hm1 : measureLeft b (s ++ [j]) < fuel :=
          Nat.lt_of_lt_of_le (measureLeft_strict b s hju hj)
            (Nat.lt_succ_iff.mp hm)
        obtain ⟨⟨s2, o2⟩, hrd⟩ := runDeps_progress b fuel _
          (fun p s o => ih p s o)
          (fun p s o s' o' h => by
            obtain ⟨t, _, hs, _⟩ := scheduleJob_growth b fuel p s o s' o' h
            exact ⟨t, hs⟩)
          (depsOf b j) (s ++ [j]) o hm1
        exact ⟨(s2, o2 ++ [j]), by simp [scheduleJob, hj, hrd]⟩
      · have hjb : j ∉ b.jobs := fun hc => hju (List.mem_append_left _ hc)
        have hdep : depsOf b j = [] := by rw [depsOf, if_neg hjb]
        exact ⟨(s ++ [j], o ++ [j]), by simp [scheduleJob, hj, hdep, runDeps]⟩

/-! The postorder invariant: on acyclic graphs, a job is appended only
after all of its dependencies, so the final order is topologically
sorted. -/

theorem topoSorted_append {b : LinBatch} {o : List Nat} {j : Nat}
    (hT : TopoSorted b o) (hj : j ∉ o)
    (hdeps : ∀ p ∈ depsOf b j, p ∈ o) : TopoSorted b (o ++ [j]) := by
  intro x hx p hp
  cases List.mem_append.mp hx with
  | inl hxo =>
    obtain ⟨hpo, hlt⟩ := hT x hxo p hp
    refine ⟨List.mem_append_left _ hpo, ?_⟩
    rw [posIn_append_left _ hpo, posIn_append_left _ hxo]
    exact hlt
  | inr hxj =>
    have hxj := List.mem_singleton.mp hxj
    subst hxj
    have hpo := hdeps p hp
    refine ⟨List.mem_append_left _ hpo, ?_⟩
    rw [posIn_append_left _ hpo]
    have : (o ++ [x]) = o ++ x :: [] := rfl
    rw [this, posIn_append_self _ hj]
    exact posIn_lt_length hpo

theorem runDeps_topo (b : LinBatch) (fuel : Nat)
    (HJ : ∀ j s o s' o', s.Nodup → TopoSorted b o → (∀ x ∈ o, x ∈ s) →
      (∀ g ∈ s, g ∉ o → Relation.TransGen (Step b) g j) →
      scheduleJob b fuel j s o = some (s', o') →
      TopoSorted b o' ∧ (∀ x ∈ o', x ∈ s') ∧ j ∈ o') :
    ∀ ps s o s' o', s.Nodup → TopoSorted b o → (∀ x ∈ o, x ∈ s) →
      (∀ g ∈ s, g ∉ o → ∀ p ∈ ps, Relation.TransGen (Step b) g p) →
      runDeps (fun p s o => scheduleJob b fuel p s o) ps s o = some (s', o') →
      TopoSorted b o' ∧ (∀ x ∈ o', x ∈ s') ∧ ∀ p ∈ ps, p ∈ o' := by
  intro ps
  induction ps with
  | nil =>
    intro s o s' o' hnd hT hsub _ h
    simp only [runDeps] at h
    obtain ⟨rfl, rfl⟩ := Prod.mk.injEq .. ▸ Option.some.inj h
    exact ⟨hT, hsub, by simp⟩
  | cons p ps ih =>
    intro s o s' o' hnd hT hsub hgrey h
    simp only [runDeps] at h
    cases hstep : scheduleJob b fuel p s o with
    | none => rw [hstep] at h; cases h
    | some so =>
      obtain ⟨s1, o1⟩ := so
      rw [hstep] at h
      obtain ⟨hT1, hsub1, hpo1⟩ := HJ p s o s1 o1 hnd hT hsub
        (fun g hg hgo => hgrey g hg hgo p (List.mem_cons_self _ _)) hstep
      obtain ⟨t1, u1, hs1, ho1, hperm1, _, hnd1⟩ :=
        scheduleJob_growth b fuel p s o s1 o1 hstep
      have hnds1 : s1.Nodup := hnd1 hnd
      have hgrey1 : ∀ g ∈ s1, g ∉ o1 → g ∈ s ∧ g ∉ o := by
        intro g hg hgo
        constructor
        · by_contra hgs
          have hgt : g ∈ t1 := by
            rw [hs1] at hg
            cases List.mem_append.mp hg with
            | inl hc => exact absurd hc hgs
            | inr hc => exact hc
          exact hgo (ho1 ▸ List.mem_append_right _ (hperm1.subset hgt))
        · intro hgo2
          exact hgo (ho1 ▸ List.mem_append_left _ hgo2)
      obtain ⟨hT', hsub', hps'⟩ := ih s1 o1 s' o' hnds1 hT1 hsub1
        (fun g hg hgo q hq =>
          have hgs := hgrey1 g hg hgo
          hgrey g hgs.1 hgs.2 q (List.mem_cons_of_mem _ hq)) h
      obtain ⟨t2, u2, hs2, ho2, _, _, _⟩ :=
        runDeps_growth _ (scheduleJob_growth b fuel) _ _ _ _ _ h
      refine ⟨hT', hsub', ?_⟩
      intro q hq
      cases hq with
      | head => exact ho2 ▸ List.mem_append_left _ hpo1
      | tail _ hq => exact hps' q hq

theorem scheduleJob_topo (b : LinBatch) (hacyc : Acyclic b) :
    ∀ fuel j s o s' o', s.Nodup → TopoSorted b o → (∀ x ∈ o, x ∈ s) →
      (∀ g ∈ s, g ∉ o → Relation.TransGen (Step b) g j) →
      scheduleJob b fuel j s o = some (s', o') →
      TopoSorted b o' ∧ (∀ x ∈ o', x ∈ s') ∧ j ∈ o' := by
  intro fuel
  induction fuel with
  | zero => intro j s o s' o' _ _ _ _ h; simp [scheduleJob] at h
  | succ fuel ih =>
    intro j s o s' o' hnd hT hsub hgrey h
    simp only [scheduleJob] at h
    by_cases hj : j ∈ s
    · rw [if_pos hj] at h
      obtain ⟨rfl, rfl⟩ := Prod.mk.injEq .. ▸ Option.some.inj h
      have hjo : j ∈ o := by
        by_contra hjo
        exact hacyc j (hgrey j hj hjo)
      exact ⟨hT, hsub, hjo⟩
    · rw [if_neg hj] at h
      cases hrd : runDeps (fun p s o => scheduleJob b fuel p s o)
          (depsOf b j) (s ++ [j]) o with
      | none => rw [hrd] at h; cases h
      | some so =>
        obtain ⟨s2, o2⟩ := so
        rw [hrd] at h
        obtain ⟨rfl, rfl⟩ := Prod.mk.injEq .. ▸ Option.some.inj h
        have hndsj : (s ++ [j]).Nodup := nodup_append_singleton hnd hj
        obtain ⟨hT2, hsub2, hps2⟩ := runDeps_topo b fuel ih
          (depsOf b j) (s ++ [j]) o s2 o2 hndsj hT
          (fun x hx => List.mem_append_left _ (hsub x hx))
          (fun g hg hgo p hp => by
            cases List.mem_append.mp hg with
            | inl hgs => exact (hgrey g hgs hgo).tail hp
            | inr hgj =>
              rw [List.mem_singleton] at hgj
              subst hgj
              exact Relation.TransGen.single hp)
          hrd
        obtain ⟨t2, u2, hs2eq, ho2eq, hperm2, _, hnd2⟩ :=
          runDeps_growth _ (scheduleJob_growth b fuel) _ _ _ _ _ hrd
        have hjo2 : j ∉ o2 := by
          intro hc
          rw [ho2eq] at hc
          cases List.mem_append.mp hc with
          | inl hc => exact hj (hsub j hc)
          | inr hc =>
            have hjt : j ∈ t2 := hperm2.symm.subset hc
            have := hnd2 hndsj
            rw [hs2eq, List.nodup_append] at this
            exact this.2.2 (List.mem_append_right _ (List.mem_singleton_self j)) hjt
        refine ⟨topoSorted_append hT2 hjo2 hps2, ?_, ?_⟩
        · intro x hx
          cases List.mem_append.mp hx with
          | inl hxo => exact hsub2 x hxo
          | inr hxj =>
            rw [List.mem_singleton] at hxj
            subst hxj
            rw [hs2eq]
            exact List.mem_append_left _
              (List.mem_append_right _ (List.mem_singleton_self x))
        · exact List.mem_append_right _ (List.mem_singleton_self j)

theorem scheduleAll_isSome (b : LinBatch) : ∃ r, scheduleAll b = some r := by
  have hm : measureLeft b [] < fuelBound b := by
    simp [measureLeft, fuelBound, Nat.lt_succ_iff]
  exact runDeps_progress b (fuelBound b) _
    (fun p s o => scheduleJob_progress b (fuelBound b) p s o)
    (fun p s o s' o' h => by
      obtain ⟨t, _, hs, _⟩ := scheduleJob_growth b (fuelBound b) p s o s' o' h
      exact ⟨t, hs⟩)
    b.jobs [] [] hm

/-- What holds of the traversal result for any batch with distinct jobs
whose dependencies all stay inside the batch: the order is a
permutation of the job list, so the count `assert` passes. -/
theorem scheduleAll_spec (b : LinBatch) (hnd : b.jobs.Nodup)
    (hc : Closed b) :
    ∃ seen ordered, scheduleAll b = some (seen, ordered) ∧
      List.Perm ordered b.jobs ∧ seen.length = b.jobs.length ∧
      (∀ j ∈ b.jobs, j ∈ ordered) ∧ ordered.Nodup := by
  obtain ⟨⟨seen, ordered⟩, hsome⟩ := scheduleAll_isSome b
  obtain ⟨t, u, hs, ho, hperm, hmem, hndpres⟩ :=
    runDeps_growth _ (scheduleJob_growth b (fuelBound b)) _ _ _ _ _ hsome
  rw [List.nil_append] at hs ho
  subst hs; subst ho
  have hseennd : seen.Nodup := hndpres (List.nodup_nil)
  have hsub : ∀ x ∈ seen, x ∈ b.jobs := by
    intro x hx
    cases runDeps_mem b _ (scheduleJob_mem b hc (fuelBound b)) _ _ _ _ _
        (fun p hp => hp) hsome x hx with
    | inl hc => cases hc
    | inr hc => exact hc
  have hseenperm : List.Perm seen b.jobs :=
    List.Subperm.antisymm (List.subperm_of_subset hseennd hsub)
      (List.subperm_of_subset hnd hmem)
  have hordperm : List.Perm ordered b.jobs := hperm.symm.trans hseenperm
  refine ⟨seen, ordered, hsome, hordperm, hseenperm.length_eq, ?_,
    hordperm.symm.nodup hnd⟩
  intro j hj
  exact hperm.subset (hmem j hj)

/-! Facts about the concrete witness batches. -/

theorem bW_step {x y : Nat} (h : Step bW x y) : x = 1 ∧ y = 0 := by
  simp only [Step, depsOf, bW] at h
  split_ifs at h with h1 h2
  · exact ⟨h2, List.mem_singleton.mp h⟩
  · cases h
  · cases h

theorem bW_acyclic : Acyclic bW := by
  have key : ∀ a c, Relation.TransGen (Step bW) a c → a = 1 ∧ c = 0 := by
    intro a c h
    induction h with
    | single h => exact bW_step h
    | tail _ hbc ih =>
      obtain ⟨ha, hb⟩ := ih
      obtain ⟨hb1, hc0⟩ := bW_step hbc
      subst hb
      exact absurd hb1 (by decide)
  intro x hx
  obtain ⟨h1, h0⟩ := key x x hx
  subst h1
  exact absurd h0 (by decide)

theorem bCyc_hasCycle : HasCycle bCyc := by
  have h01 : Step bCyc 0 1 := by
    show (1 : Nat) ∈ depsOf bCyc 0
    decide
  have h10 : Step bCyc 1 0 := by
    show (0 : Nat) ∈ depsOf bCyc 1
    decide
  exact ⟨0, Relation.TransGen.tail (Relation.TransGen.single h01) h10⟩

theorem bCex_hasCycle : HasCycle bCex := by
  have h01 : Step bCex 0 1 := by
    show (1 : Nat) ∈ depsOf bCex 0
    decide
  have h10 : Step bCex 1 0 := by
    show (0 : Nat) ∈ depsOf bCex 1
    decide
  exact ⟨0, Relation.TransGen.tail (Relation.TransGen.single h01) h10⟩

/-- C1: for every Batch whose jobs are pairwise-distinct objects, whose
dependencies all stay within the Batch and whose dependency relation is
acyclic, `run`'s linearization succeeds, produces a permutation of the
job list, assigns every job the 1-based position equal to its index in
that order, and places every job strictly after each of its
dependencies. -/
theorem run_linearizes_acyclic (b : LinBatch) (hnd : b.jobs.Nodup)
    (hc : Closed b) (ha : Acyclic b) :
    ∃ o, linearize b = Except.ok o ∧ List.Perm o b.jobs ∧
      (∀ (i : Nat) (h : i < o.length), posOf o (o.get ⟨i, h⟩) = i + 1) ∧
      (∀ j ∈ o, ∀ d ∈ b.deps j, posOf o d < posOf o j) := by
  obtain ⟨seen, ordered, hsome, hperm, hlen, _, hndord⟩ :=
    scheduleAll_spec b hnd hc
  obtain ⟨hT, _, _⟩ := runDeps_topo b (fuelBound b)
    (scheduleJob_topo b ha (fuelBound b)) b.jobs [] [] seen ordered
    List.nodup_nil (fun x hx => absurd hx (List.not_mem_nil x))
    (fun x hx => absurd hx (List.not_mem_nil x))
    (fun g hg => absurd hg (List.not_mem_nil g)) hsome
  have hcheck : (ordered.all fun j => (depsOf b j).all
      fun d => decide (posOf ordered d < posOf ordered j)) = true := by
    rw [List.all_eq_true]
    intro j hj
    rw [List.all_eq_true]
    intro d hd
    have := (hT j hj d hd).2
    simp only [decide_eq_true_eq, posOf]
    omega
  refine ⟨ordered, ?_, hperm, ?_, ?_⟩
  · simp only [linearize, hsome, hlen, hcheck, if_true]
  · intro i h
    rw [posOf, posIn_get hndord i h]
  · intro j hj d hd
    have hjb : j ∈ b.jobs := hperm.subset hj
    have hdep : d ∈ depsOf b j := by rw [depsOf, if_pos hjb]; exact hd
    have := (hT j hj d hdep).2
    simp only [posOf]
    omega

/-- C1 witness: the concrete batch `bW` (job 1 depends on job 0)
satisfies the hypotheses, and its linearization behaves as stated. -/
theorem run_linearizes_acyclic_witness :
    bW.jobs.Nodup ∧ Closed bW ∧ Acyclic bW ∧
      ∃ o, linearize bW = Except.ok o ∧ List.Perm o bW.jobs ∧
        (∀ (i : Nat) (h : i < o.length), posOf o (o.get ⟨i, h⟩) = i + 1) ∧
        (∀ j ∈ o, ∀ d ∈ bW.deps j, posOf o d < posOf o j) :=
  ⟨by decide, by unfold Closed; decide, bW_acyclic,
    run_linearizes_acyclic bW (by decide) (by unfold Closed; decide) bW_acyclic⟩

/-- C2 counterexample: `bCex` has a dependency cycle among its jobs
(0 and 1 depend on each other), yet `run` fails with the count-mismatch
`AssertionError` — not the cycle-detected `BatchException` — because
job 0 also depends on an id outside the batch's job list. -/
theorem run_cycle_claim_counterexample :
    HasCycle bCex ∧ linearize bCex = Except.error BatchError.assertionError ∧
      BatchError.assertionError ≠
        BatchError.batchException "cycle detected in dependency graph" :=
  ⟨bCex_hasCycle, by rfl, by decide⟩

/-- C2 (amended): for every Batch with pairwise-distinct jobs whose
dependencies all stay within the Batch and whose dependency graph has a
cycle, `run` terminates and fails with
`BatchException("cycle detected in dependency graph")` before any
backend delegation. -/
theorem run_cycle_detected (b : LinBatch) (hnd : b.jobs.Nodup)
    (hc : Closed b) (hcyc : HasCycle b) :
    linearize b = Except.error
      (BatchError.batchException "cycle detected in dependency graph") := by
  obtain ⟨seen, ordered, hsome, hperm, hlen, hin, hndord⟩ :=
    scheduleAll_spec b hnd hc
  cases hall : (ordered.all fun j => (depsOf b j).all
      fun d => decide (posOf ordered d < posOf ordered j)) with
  | false => simp [linearize, hsome, hlen, hall]
  | true =>
    exfalso
    have hpt : ∀ j ∈ ordered, ∀ d ∈ depsOf b j,
        posIn ordered d < posIn ordered j := by
      intro j hj d hd
      have h1 := List.all_eq_true.mp hall j hj
      have h2 := List.all_eq_true.mp h1 d hd
      rw [decide_eq_true_eq] at h2
      simp only [posOf] at h2
      omega
    obtain ⟨x, hx⟩ := hcyc
    have hxjobs : x ∈ b.jobs := by
      obtain ⟨c, hstep, _⟩ := Relation.TransGen.head'_iff.mp hx
      rw [Step, depsOf] at hstep
      by_contra hcx
      rw [if_neg hcx] at hstep
      cases hstep
    have key : ∀ c, Relation.TransGen (Step b) x c →
        c ∈ b.jobs ∧ posIn ordered c < posIn ordered x := by
      intro c h
      induction h with
      | single h =>
        have hdc := h
        rw [Step, depsOf, if_pos hxjobs] at hdc
        exact ⟨hc x hxjobs _ hdc, hpt x (hin x hxjobs) _ h⟩
      | tail _ hbc ih =>
        obtain ⟨hmj, hml⟩ := ih
        have hdc := hbc
        rw [Step, depsOf, if_pos hmj] at hdc
        exact ⟨hc _ hmj _ hdc,
          Nat.lt_trans (hpt _ (hin _ hmj) _ hbc) hml⟩
    exact Nat.lt_irrefl _ (key x hx).2

/-- C2 (amended) witness: the closed 2-cycle batch `bCyc` satisfies the
hypotheses and `run` on it fails with the cycle-detected error. -/
theorem run_cycle_detected_witness :
    bCyc.jobs.Nodup ∧ Closed bCyc ∧ HasCycle bCyc ∧
      linearize bCyc = Except.error
        (BatchError.batchException "cycle detected in dependency graph") :=
  ⟨by decide, by unfold Closed; decide, bCyc_hasCycle,
    run_cycle_detected bCyc (by decide) (by unfold Closed; decide) bCyc_hasCycle⟩

/-! write_output: claims C3, C4 and C10. -/

/-- C3 counterexample: two un-mentioned job-produced resources that
`write_output` does not reject, although the claim says every
un-mentioned job-produced resource (job output file, grouped file set,
or callable result) fails with a binding error: a grouped file set
produced by a bash job, and a job output file produced by a python
job — both calls succeed. -/
theorem write_output_unmentioned_claim_counterexample :
    (write_output wCtxLocal
      (WOArg.res (Resource.resourceGroup (some JobKind.bashJob) false []))
      "out").fst = Except.ok () ∧
    (write_output wCtxLocal
      (WOArg.res (Resource.resourceGroup (some JobKind.bashJob) false []))
      "out").snd = WOArg.res
        (Resource.resourceGroup (some JobKind.bashJob) false ["/abs/out"]) ∧
    (write_output wCtxLocal
      (WOArg.res (Resource.jobResourceFile JobKind.pythonJob false "jf" []))
      "out").fst = Except.ok () :=
  ⟨rfl, rfl, rfl⟩

/-- C3 (amended): `write_output` fails with the binding error naming
the offending symbolic identifier, for every destination, exactly on an
un-mentioned `JobResourceFile` produced by a bash job and on an
un-mentioned `PythonResult` produced by a python job; every other
resource argument — in particular an un-mentioned job-produced
`ResourceGroup` and an un-mentioned `JobResourceFile` produced by a
python job — is not subject to the mention check and never raises. -/
theorem write_output_mention_check_exact (ctx : WriteCtx)
    (dest name : String) (paths : List String) :
    (write_output ctx
        (WOArg.res (Resource.jobResourceFile JobKind.bashJob false name paths))
        dest).fst
      = Except.error (BatchError.batchException (undefinedBashResourceMsg name)) ∧
    (write_output ctx
        (WOArg.res (Resource.pythonResult JobKind.pythonJob false name paths))
        dest).fst
      = Except.error (BatchError.batchException (undefinedPythonResourceMsg name)) ∧
    (∀ r : Resource,
      (∀ n ps, r ≠ Resource.jobResourceFile JobKind.bashJob false n ps) →
      (∀ n ps, r ≠ Resource.pythonResult JobKind.pythonJob false n ps) →
      (write_output ctx (WOArg.res r) dest).fst = Except.ok ()) := by
  refine ⟨rfl, rfl, ?_⟩
  intro r h1 h2
  cases r with
  | inputResourceFile ps2 => rfl
  | jobResourceFile src m n2 ps2 =>
    cases src with
    | bashJob =>
      cases m with
      | false => exact absurd rfl (h1 n2 ps2)
      | true => rfl
    | pythonJob =>
      cases m with
      | false => rfl
      | true => rfl
  | pythonResult src m n2 ps2 =>
    cases src with
    | bashJob =>
      cases m with
      | false => rfl
      | true => rfl
    | pythonJob =>
      cases m with
      | false => exact absurd rfl (h2 n2 ps2)
      | true => rfl
  | resourceGroup src m ps2 => rfl

/-- C3 (amended) witness: the success clause applied to an un-mentioned
job-produced group and to an un-mentioned python-job-produced file. -/
theorem write_output_mention_check_exact_witness :
    (write_output wCtxLocal
      (WOArg.res (Resource.resourceGroup (some JobKind.bashJob) false []))
      "dst").fst = Except.ok () ∧
    (write_output wCtxLocal
      (WOArg.res (Resource.jobResourceFile JobKind.pythonJob false "o" []))
      "dst").fst = Except.ok () :=
  ⟨(write_output_mention_check_exact wCtxLocal "dst" "o" []).2.2
      (Resource.resourceGroup (some JobKind.bashJob) false [])
      (by intro n ps h; cases h) (by intro n ps h; cases h),
    (write_output_mention_check_exact wCtxLocal "dst" "o" []).2.2
      (Resource.jobResourceFile JobKind.pythonJob false "o" [])
      (by intro n ps h; injection h with hk; cases hk)
      (by intro n ps h; cases h)⟩

/-- C4: `write_output` on an `InputResourceFile` always succeeds, with
no mention tracking involved, records the destination on the resource,
and resolves it to the absolute path exactly when the backend is local
and the destination has no storage scheme. -/
theorem write_output_input_file_ok (ctx : WriteCtx) (paths : List String)
    (dest : String) :
    (write_output ctx (WOArg.res (Resource.inputResourceFile paths)) dest).fst
      = Except.ok () ∧
    (write_output ctx (WOArg.res (Resource.inputResourceFile paths)) dest).snd
      = WOArg.res (Resource.inputResourceFile (paths ++
          [if ctx.backend = Backend.localBackend ∧ ctx.urlScheme dest = ""
            then ctx.abspath dest else dest])) ∧
    (ctx.backend = Backend.localBackend → ctx.urlScheme dest = "" →
      (write_output ctx (WOArg.res (Resource.inputResourceFile paths)) dest).snd
        = WOArg.res (Resource.inputResourceFile (paths ++ [ctx.abspath dest]))) := by
  refine ⟨rfl, rfl, ?_⟩
  intro hb hs
  simp [write_output, Resource.addOutputPath, hb, hs]

/-- C4 witness: on a local backend with a scheme-less destination the
recorded path is the absolute resolution. -/
theorem write_output_input_file_ok_witness :
    (write_output wCtxLocal (WOArg.res (Resource.inputResourceFile ["p"]))
      "out").fst = Except.ok () ∧
    (write_output wCtxLocal (WOArg.res (Resource.inputResourceFile ["p"]))
      "out").snd = WOArg.res (Resource.inputResourceFile ["p", "/abs/out"]) :=
  ⟨(write_output_input_file_ok wCtxLocal ["p"] "out").1,
    (write_output_input_file_ok wCtxLocal ["p"] "out").2.2 rfl rfl⟩

/-- C10: `write_output` is atomic on error — whenever it raises, the
argument's recorded output destinations are untouched; the destination
is recorded only after every check has passed. -/
theorem write_output_atomic_on_error (ctx : WriteCtx) (arg : WOArg)
    (dest : String) (e : BatchError)
    (h : (write_output ctx arg dest).fst = Except.error e) :
    (write_output ctx arg dest).snd = arg := by
  cases arg with
  | notAResource ty => rfl
  | res r =>
    cases r with
    | inputResourceFile ps => simp [write_output] at h
    | jobResourceFile src m n ps =>
      cases src with
      | bashJob =>
        cases m with
        | false => rfl
        | true => simp [write_output] at h
      | pythonJob => simp [write_output] at h
    | pythonResult src m n ps =>
      cases src with
      | bashJob => simp [write_output] at h
      | pythonJob =>
        cases m with
        | false => rfl
        | true => simp [write_output] at h
    | resourceGroup src m ps => simp [write_output] at h

/-- C10 witness: a failing call (non-Resource argument) leaves the
argument unchanged. -/
theorem write_output_atomic_on_error_witness :
    (write_output wCtxLocal (WOArg.notAResource "class str") "out").fst
      = Except.error (BatchError.batchException (writeOutputTypeMsg "class str")) ∧
    (write_output wCtxLocal (WOArg.notAResource "class str") "out").snd
      = WOArg.notAResource "class str" :=
  ⟨rfl, write_output_atomic_on_error wCtxLocal (WOArg.notAResource "class str")
    "out" (BatchError.batchException (writeOutputTypeMsg "class str")) rfl⟩

/-! Job tokens: claim C5. -/

theorem uniqueJobToken_not_mem (rng : Nat → String) :
    ∀ fuel ctr used t c, uniqueJobToken rng fuel ctr used = some (t, c) →
      t ∉ used := by
  intro fuel
  induction fuel with
  | zero => intro ctr used t c h; simp [uniqueJobToken] at h
  | succ fuel ih =>
    intro ctr used t c h
    simp only [uniqueJobToken] at h
    by_cases hm : rng ctr ∈ used
    · rw [if_pos hm] at h
      exact ih (ctr + 1) used t c h
    · rw [if_neg hm] at h
      obtain ⟨rfl, _⟩ := Prod.mk.injEq .. ▸ Option.some.inj h
      exact hm

/-- C5: within one Batch, two successive token mints never return the
same token, even when the random generator repeats values: the retry
loop redraws past every token already in the used-token set, and every
minted token is recorded in that set. -/
theorem job_tokens_distinct (rng : Nat → String) (fuel1 fuel2 ctr : Nat)
    (used used1 used2 : List String) (t1 t2 : String) (c1 c2 : Nat)
    (h1 : mintAndRecordToken rng fuel1 ctr used = some (t1, c1, used1))
    (h2 : mintAndRecordToken rng fuel2 c1 used1 = some (t2, c2, used2)) :
    t1 ≠ t2 ∧ t1 ∈ used1 ∧ t2 ∈ used2 := by
  simp only [mintAndRecordToken] at h1 h2
  cases hu1 : uniqueJobToken rng fuel1 ctr used with
  | none => rw [hu1] at h1; cases h1
  | some tc1 =>
    obtain ⟨ta, ca⟩ := tc1
    rw [hu1] at h1
    simp only [Option.some.injEq, Prod.mk.injEq] at h1
    obtain ⟨h1t, h1c, h1u⟩ := h1
    subst h1t; subst h1c; subst h1u
    cases hu2 : uniqueJobToken rng fuel2 ca (used ++ [ta]) with
    | none => rw [hu2] at h2; cases h2
    | some tc2 =>
      obtain ⟨tb, cb⟩ := tc2
      rw [hu2] at h2
      simp only [Option.some.injEq, Prod.mk.injEq] at h2
      obtain ⟨h2t, h2c, h2u⟩ := h2
      subst h2t; subst h2c; subst h2u
      have ht1 : ta ∈ used ++ [ta] :=
        List.mem_append_right _ (List.mem_singleton_self ta)
      have ht2 : tb ∉ used ++ [ta] :=
        uniqueJobToken_not_mem rng fuel2 ca (used ++ [ta]) tb cb hu2
      exact ⟨fun e => ht2 (e ▸ ht1), ht1,
        List.mem_append_right _ (List.mem_singleton_self tb)⟩

/-- C5 witness: with a stream whose second draw repeats the first
token, the retry loop redraws and the two minted tokens differ. -/
theorem job_tokens_distinct_witness :
    mintAndRecordToken rngW 3 0 [] = some ("A", 1, ["A"]) ∧
    mintAndRecordToken rngW 3 1 ["A"] = some ("B", 3, ["A", "B"]) ∧
    "A" ≠ "B" :=
  ⟨rfl, rfl,
    (job_tokens_distinct rngW 3 3 0 [] ["A"] ["A", "B"] "A" "B" 1 3 rfl rfl).1⟩

/-! Reserved attribute key: claim C6. -/

/-- C6: a call to `new_bash_job` or `new_python_job` (hence also to the
alias `new_job`) whose attributes contain the key "name" fails with the
configuration error and appends no job to the batch. -/
theorem new_job_reserved_name_rejected (rng : Nat → String) (fuel : Nat)
    (st : BatchSt) (name : Option String)
    (attrs : List (String × String)) (r : Except BatchError Unit)
    (st' : BatchSt)
    (hname : attrs.any (fun kv => kv.fst = "name") = true) :
    (new_bash_job rng fuel st name attrs = some (r, st') →
      r = Except.error (BatchError.batchException jobCtorNameMsg) ∧
      st'.jobs = st.jobs) ∧
    (new_python_job rng fuel st name attrs = some (r, st') →
      r = Except.error (BatchError.batchException jobCtorNameMsg) ∧
      st'.jobs = st.jobs) := by
  constructor
  · intro h
    simp only [new_bash_job] at h
    cases hmint : mintAndRecordToken rng fuel st.rngCtr st.jobTokens with
    | none => rw [hmint] at h; cases h
    | some tcu =>
      obtain ⟨tok, ctr', used'⟩ := tcu
      rw [hmint, jobCtorCheck, if_pos hname] at h
      obtain ⟨rfl, rfl⟩ := Prod.mk.injEq .. ▸ Option.some.inj h
      exact ⟨rfl, rfl⟩
  · intro h
    simp only [new_python_job] at h
    cases hmint : mintAndRecordToken rng fuel st.rngCtr st.jobTokens with
    | none => rw [hmint] at h; cases h
    | some tcu =>
      obtain ⟨tok, ctr', used'⟩ := tcu
      rw [hmint, jobCtorCheck, if_pos hname] at h
      obtain ⟨rfl, rfl⟩ := Prod.mk.injEq .. ▸ Option.some.inj h
      exact ⟨rfl, rfl⟩

/-- C6 witness: a concrete call with a "name" attribute fails and
leaves the job list empty. -/
theorem new_job_reserved_name_rejected_witness :
    new_bash_job rngW 1 stW none [("name", "x")]
      = some (Except.error (BatchError.batchException jobCtorNameMsg),
          ⟨[], [], 1⟩) ∧
    (⟨[], [], 1⟩ : BatchSt).jobs = stW.jobs :=
  ⟨rfl,
    ((new_job_reserved_name_rejected rngW 1 stW none [("name", "x")]
      (Except.error (BatchError.batchException jobCtorNameMsg))
      ⟨[], [], 1⟩ (by decide)).1 rfl).2⟩

/-! Resource groups: claim C7. -/

theorem rgLoop_all_str (expand : String → String) :
    ∀ (codes : List (String × String)) (reg : List RegEntry),
      newResourceGroupLoop expand
          (codes.map (fun nc => (nc.1, RGValue.strVal nc.2))) reg
        = (Except.ok (),
            reg ++ codes.map (fun nc => RegEntry.member (expand nc.2))) := by
  intro codes
  induction codes with
  | nil => intro reg; simp [newResourceGroupLoop]
  | cons nc rest ih =>
    intro reg
    obtain ⟨n, c⟩ := nc
    simp only [List.map_cons, newResourceGroupLoop, ih, List.append_assoc,
      List.singleton_append]

theorem rgLoop_first_bad (expand : String → String) :
    ∀ (codes : List (String × String)) (name ty : String)
      (rest : List (String × RGValue)) (reg : List RegEntry),
      newResourceGroupLoop expand
          (codes.map (fun nc => (nc.1, RGValue.strVal nc.2)) ++
            (name, RGValue.nonStrVal ty) :: rest) reg
        = (Except.error (BatchError.batchException (rgValueMsg name ty)),
            reg ++ codes.map (fun nc => RegEntry.member (expand nc.2))) := by
  intro codes
  induction codes with
  | nil => intro name ty rest reg; simp [newResourceGroupLoop]
  | cons nc rest0 ih =>
    intro name ty rest reg
    obtain ⟨n, c⟩ := nc
    simp only [List.map_cons, List.cons_append, newResourceGroupLoop,
      List.append_eq]
    rw [ih]
    simp [List.append_assoc]

/-- C7 (amended): building a resource group fails with the descriptive
error naming the first offending member and its type when some mapping
value is not a string, leaving the members minted before that point in
the registry (registration is not rolled back); when every value is a
string, each template is expanded eagerly and all member resources and
then the group are registered. -/
theorem new_resource_group_spec :
    (∀ (expand : String → String) (root : String)
      (codes : List (String × String)) (name ty : String)
      (rest : List (String × RGValue)) (reg : List RegEntry),
      new_resource_group expand root
          (codes.map (fun nc => (nc.1, RGValue.strVal nc.2)) ++
            (name, RGValue.nonStrVal ty) :: rest) reg
        = (Except.error (BatchError.batchException (rgValueMsg name ty)),
            reg ++ codes.map (fun nc => RegEntry.member (expand nc.2)))) ∧
    (∀ (expand : String → String) (root : String)
      (codes : List (String × String)) (reg : List RegEntry),
      new_resource_group expand root
          (codes.map (fun nc => (nc.1, RGValue.strVal nc.2))) reg
        = (Except.ok (),
            (reg ++ codes.map (fun nc => RegEntry.member (expand nc.2))) ++
              [RegEntry.group root])) := by
  constructor
  · intro expand root codes name ty rest reg
    simp [new_resource_group, rgLoop_first_bad expand codes name ty rest reg]
  · intro expand root codes reg
    simp [new_resource_group, rgLoop_all_str expand codes reg]

/-- C7 counterexample: with a first string member and a second
non-string member, the call fails but the first member is already
registered — the claim that no resources from the call are registered
is false. -/
theorem new_resource_group_claim_counterexample :
    new_resource_group id "r"
        [("a", RGValue.strVal "A"), ("b", RGValue.nonStrVal "int")] []
      = (Except.error (BatchError.batchException (rgValueMsg "b" "int")),
          [RegEntry.member "A"]) ∧
    ([RegEntry.member "A"] : List RegEntry) ≠ [] :=
  ⟨rfl, by decide⟩

end HailBatch

namespace HailFS

/-! Storage facade: claims C8 and C9. -/

/-- C8: `RouterFS.stat` returns the looked-up size (and the probed
type) when the file-size lookup succeeds; when the lookup reports
not-found it returns a zero-size directory result if the path resolves
as a directory, and raises `FileNotFoundError` only when the path is
neither. -/
theorem routerFS_stat_spec (path : String) (sizeBytes : Option Nat)
    (isDir : Bool) :
    (∀ n, sizeBytes = some n →
      RouterFS_stat path sizeBytes isDir = Except.ok (statResultOf isDir n path)) ∧
    (sizeBytes = none → isDir = true →
      RouterFS_stat path sizeBytes isDir = Except.ok (statResultOf true 0 path)) ∧
    (sizeBytes = none → isDir = false →
      RouterFS_stat path sizeBytes isDir
        = Except.error (FSError.fileNotFound path)) := by
  refine ⟨?_, ?_, ?_⟩
  · intro n h; subst h; rfl
  · intro h hd; subst h; subst hd; rfl
  · intro h hd; subst h; subst hd; rfl

/-- C8 witness: the three branches at concrete inputs. -/
theorem routerFS_stat_spec_witness :
    RouterFS_stat "p" (some 5) false = Except.ok (statResultOf false 5 "p") ∧
    RouterFS_stat "q" none true = Except.ok (statResultOf true 0 "q") ∧
    RouterFS_stat "r" none false = Except.error (FSError.fileNotFound "r") :=
  ⟨(routerFS_stat_spec "p" (some 5) false).1 5 rfl,
    (routerFS_stat_spec "q" none true).2.1 rfl rfl,
    (routerFS_stat_spec "r" none false).2.2 rfl rfl⟩

/-- C9: a write-mode open whose first attempt fails with
`FileNotFoundError` is retried exactly once after the parent
directories are created, and whatever the retry yields — success or a
second failure — is the result; any other first failure, and every
read-mode outcome, propagates unchanged. -/
theorem localFS_open_spec (w : LocalOpenWorld) (mode : String) :
    ('w' ∈ mode.data →
      w.firstOpen = Except.error OSErr.fileNotFound →
      LocalFS_open w mode = w.retryOpen) ∧
    ('w' ∈ mode.data →
      w.firstOpen ≠ Except.error OSErr.fileNotFound →
      LocalFS_open w mode = w.firstOpen) ∧
    ('w' ∉ mode.data → LocalFS_open w mode = w.firstOpen) := by
  refine ⟨?_, ?_, ?_⟩
  · intro hm hf
    rw [LocalFS_open, if_pos hm, hf]
  · intro hm hne
    rw [LocalFS_open, if_pos hm]
    cases hfo : w.firstOpen with
    | ok v => rfl
    | error e =>
      cases e with
      | fileNotFound => exact absurd hfo hne
      | permissionDenied => rfl
      | otherErr s => rfl
  · intro hm
    rw [LocalFS_open, if_neg hm]

/-- C9 witness: missing parent triggers the retried open's result;
permission errors and read modes propagate the first outcome. -/
theorem localFS_open_spec_witness :
    LocalFS_open wWorldMissingParent "wb" = Except.ok 7 ∧
    LocalFS_open wWorldNoPerm "wb" = Except.error OSErr.permissionDenied ∧
    LocalFS_open wWorldMissingParent "rb" = Except.error OSErr.fileNotFound :=
  ⟨(localFS_open_spec wWorldMissingParent "wb").1 (by decide) rfl,
    (localFS_open_spec wWorldNoPerm "wb").2.1 (by decide)
      (fun h => absurd (Except.error.inj h) (by decide)),
    (localFS_open_spec wWorldMissingParent "rb").2.2 (by decide)⟩

end HailFS
